import Mathlib

/-!
# Verification of the cpp_utils thread pool and parallel algorithms

A shallow embedding of the core of the `cpp_utils` library:

* the batching schedules of the thread-pool versions of `parallel_foreach`,
  `parallel_foreach_i`, `parallel_foreach_n` and `parallel_foreach_pair_i`
  (parallel.hpp), and
* a small-step operational model of `default_thread_pool` (thread_pool.hpp):
  the worker loop, `do_task`, `wait` and destruction.

All sizes and indices are modelled as `Nat`; the C++ `std::size_t` arithmetic
in the ranges considered here (`first <= last`) never wraps, so `Nat`
subtraction and division agree with the source.  The unguarded division
`n / thread_pool.size()` is undefined behavior in C++ when the pool has size
zero; the schedule models return `none` in exactly that case.
-/

namespace cpp

/-- A task submitted by one of the batched parallel algorithms of parallel.hpp:
either a batch task covering positions `[lo, hi)` of the range with running
index starting at `istart`, or an individual task for a single position `pos`
carrying index `idx`. -/
inductive ParTask
  | batch (lo hi istart : Nat)
  | single (pos idx : Nat)
deriving DecidableEq, Repr

/-- The (position, running-index) pairs at which a submitted task invokes the
element functor: a batch task loops sequentially over its slice, carrying the
running index along; an individual task fires once. -/
def ParTask.invocations : ParTask → List (Nat × Nat)
  | .batch lo hi istart => (List.range' lo (hi - lo)).map fun p => (p, istart + (p - lo))
  | .single pos idx => [(pos, idx)]

/-- The list of indices on which `fun` is invoked by the thread-pool version of
`parallel_foreach_n(pool, first, last, fun)` (parallel.hpp, lines 519-551), for
a pool of size `t`.  Returns `none` when `t = 0`: the computation
`part = n / thread_pool.size()` divides by zero, which is undefined behavior.
Faithful to the source: the batched path submits batches covering
`[i*part, (i+1)*part)` (absolute indices, not offset by `first`) and then the
remainder indices `[last - n % t, last)`. -/
def parallel_foreach_n_indices (t first last : Nat) : Option (List Nat) :=
  if t = 0 then none
  else
    let n := last - first
    let part := n / t
    if part < 2 then
      some (List.range' first n)
    else
      let rem := n % t
      some ((List.range t).flatMap (fun i => List.range' (i * part) part)
            ++ List.range' (last - rem) rem)

/-- The positions (offsets from `first`) on which `fun` is invoked by the
thread-pool random-access version of `parallel_foreach(pool, first, last, fun)`
(parallel.hpp, lines 234-266), for a pool of size `t` and a range of length
`n`.  Returns `none` when `t = 0` (division by zero in `n / t`).  This variant
offsets its batches from `first` (`first + t * part`), so positions are
relative to the start of the range. -/
def parallel_foreach_positions (t n : Nat) : Option (List Nat) :=
  if t = 0 then none
  else
    let part := n / t
    if part < 2 then
      some (List.range n)
    else
      let rem := n % t
      some ((List.range t).flatMap (fun i => List.range' (i * part) part)
            ++ List.range' (n - rem) rem)

/-- The tasks submitted by the thread-pool random-access version of
`parallel_foreach_i(pool, first, last, fun)` (parallel.hpp, lines 316-350) on a
range of length `n`, for a pool of size `t`; positions are offsets from
`first`.  Returns `none` when `t = 0` (division by zero in `n / t`).
Faithful to the source: if `part < 2` every element is submitted individually
with its index; otherwise the i-th of `t` batch tasks covers
`[i*part, (i+1)*part)` with running index starting at `i*part`, and the
`n % t` remainder elements are submitted individually with indices continuing
from `n - n % t`. -/
def parallel_foreach_i_tasks (t n : Nat) : Option (List ParTask) :=
  if t = 0 then none
  else
    let part := n / t
    if part < 2 then
      some ((List.range n).map fun i => ParTask.single i i)
    else
      let rem := n % t
      some ((List.range t).map
              (fun i => ParTask.batch (i * part) ((i + 1) * part) (i * part))
            ++ (List.range' (n - rem) rem).map fun i => ParTask.single i i)

/-- The tasks submitted by `parallel_foreach_pair_i` (parallel.hpp, lines
567-602) in its random-access path, for a pool of size `t` and a first range of
length `n`.  Returns `none` when `t = 0` (division by zero in `n / t`).
Faithful to the source: unlike the other variants there is no `part < 2` test;
`t` batch tasks covering `[i*part, (i+1)*part)` are always submitted, followed
by the `n % t` remainder elements as individual tasks with indices continuing
from `n - n % t`. -/
def parallel_foreach_pair_i_tasks (t n : Nat) : Option (List ParTask) :=
  if t = 0 then none
  else
    let part := n / t
    let rem := n % t
    some ((List.range t).map
            (fun i => ParTask.batch (i * part) ((i + 1) * part) (i * part))
          ++ (List.range' (n - rem) rem).map fun i => ParTask.single i i)

/-- The `t` batch slices `[i*part, (i+1)*part)` laid end to end cover exactly
`[0, t*part)`. -/
lemma range_flatMap_slices (t part : Nat) :
    (List.range t).flatMap (fun i => List.range' (i * part) part)
      = List.range' 0 (t * part) := by
  induction t with
  | zero => simp
  | succ t ih =>
    rw [List.range_succ, List.flatMap_append, ih]
    simp only [List.flatMap_cons, List.flatMap_nil, List.append_nil]
    have h := List.range'_append 0 (t * part) part 1
    simp only [Nat.one_mul, Nat.zero_add] at h
    rw [h]
    congr 1
    ring

/-- A batch task whose running index starts at the start of its slice invokes
the functor at pairs (position, position). -/
lemma batch_invocations_eq (b part : Nat) :
    (ParTask.batch (b * part) ((b + 1) * part) (b * part)).invocations
      = (List.range' (b * part) part).map fun p => (p, p) := by
  have hlen : (b + 1) * part - b * part = part := by
    have : (b + 1) * part = b * part + part := by ring
    omega
  simp only [ParTask.invocations]
  rw [hlen]
  refine List.map_congr_left fun p hp => ?_
  rcases List.mem_range'.mp hp with ⟨i, hi, rfl⟩
  simp

/-- The invocations of the `t` batch tasks, laid end to end, are exactly the
pairs (p, p) for p in `[0, t*part)`. -/
lemma batches_invocations (t part : Nat) :
    ((List.range t).map
        (fun i => ParTask.batch (i * part) ((i + 1) * part) (i * part))).flatMap
      ParTask.invocations
      = (List.range' 0 (t * part)).map fun p => (p, p) := by
  rw [List.flatMap_map]
  simp only [batch_invocations_eq]
  rw [← List.map_flatMap, range_flatMap_slices]

/-- The invocations of individual tasks for positions `[a, a+k)` are exactly
the pairs (p, p) for p in `[a, a+k)`. -/
lemma singles_invocations (a k : Nat) :
    ((List.range' a k).map (fun i => ParTask.single i i)).flatMap
      ParTask.invocations
      = (List.range' a k).map fun p => (p, p) := by
  rw [List.flatMap_map]
  exact (List.map_eq_flatMap _ _).symm

/-- Coverage of the batched schedule: `t` batch tasks over slices of size
`n / t` followed by the `n % t` remainder elements as individual tasks invoke
the functor exactly once per position `p` of `[0, n)`, each time with running
index `p`. -/
lemma sched_invocations (t n : Nat) :
    (((List.range t).map
        (fun i => ParTask.batch (i * (n / t)) ((i + 1) * (n / t)) (i * (n / t)))
      ++ (List.range' (n - n % t) (n % t)).map fun i => ParTask.single i i).flatMap
        ParTask.invocations)
      = (List.range n).map fun p => (p, p) := by
  rw [List.flatMap_append, batches_invocations, singles_invocations,
    ← List.map_append]
  congr 1
  have hdm : t * (n / t) + n % t = n := Nat.div_add_mod n t
  have h1 : n - n % t = t * (n / t) := by omega
  rw [h1, List.range_eq_range']
  have h := List.range'_append 0 (t * (n / t)) (n % t) 1
  simp only [Nat.one_mul, Nat.zero_add] at h
  rw [h]
  congr 1
  omega

/-- C3: the claim fails on the code, and the code contradicts its own doc
comment ("Applies the given functor ... to each index in the range
[first, last)").  At pool size `t = 2`, `first = 2`, `last = 6` the batched
path of `parallel_foreach_n` (part = 2) submits batches covering absolute
indices `[i*part, (i+1)*part)` without offsetting by `first`: the functor is
invoked on indices 0,1,2,3.  Index 4 lies in `[first, last) = [2, 6)` (here
`List.range' 2 4`) but is never invoked, while index 0 lies outside it but is
invoked. -/
theorem parallel_foreach_n_offset_failing_input :
    parallel_foreach_n_indices 2 2 6 = some [0, 1, 2, 3] ∧
    (4 ∈ List.range' 2 4 ∧ 4 ∉ [0, 1, 2, 3]) ∧
    (0 ∉ List.range' 2 4 ∧ 0 ∈ [0, 1, 2, 3]) := by decide

/-- C4: for every pool of size `t >= 1` and range of length `n` with
`part = n / t >= 2`, `parallel_foreach_i` submits exactly `t` batch tasks, the
i-th covering positions `[i*part, (i+1)*part)` with running index starting at
`i*part`, followed by the `n % t` remainder elements as individual tasks whose
indices continue from `n - n % t`; the resulting invocation sequence pairs
every position `p` of `[0, n)` with index `p`, exactly once each. -/
theorem parallel_foreach_i_batched_coverage (t n : Nat) (ht : 0 < t)
    (hp : 2 ≤ n / t) :
    parallel_foreach_i_tasks t n =
      some ((List.range t).map
              (fun i => ParTask.batch (i * (n / t)) ((i + 1) * (n / t)) (i * (n / t)))
            ++ (List.range' (n - n % t) (n % t)).map fun i => ParTask.single i i) ∧
    (((List.range t).map
        (fun i => ParTask.batch (i * (n / t)) ((i + 1) * (n / t)) (i * (n / t)))
      ++ (List.range' (n - n % t) (n % t)).map fun i => ParTask.single i i).flatMap
        ParTask.invocations)
      = (List.range n).map fun p => (p, p) := by
  constructor
  · have h0 : ¬ t = 0 := by omega
    have h2 : ¬ (n / t < 2) := by omega
    simp only [parallel_foreach_i_tasks, h0, if_false, h2]
  · exact sched_invocations t n

/-- C4 witness: the batched coverage theorem instantiated at `t = 2`, `n = 5`
(part = 2, remainder 1). -/
theorem parallel_foreach_i_batched_coverage_witness :
    parallel_foreach_i_tasks 2 5 =
      some ((List.range 2).map
              (fun i => ParTask.batch (i * (5 / 2)) ((i + 1) * (5 / 2)) (i * (5 / 2)))
            ++ (List.range' (5 - 5 % 2) (5 % 2)).map fun i => ParTask.single i i) ∧
    (((List.range 2).map
        (fun i => ParTask.batch (i * (5 / 2)) ((i + 1) * (5 / 2)) (i * (5 / 2)))
      ++ (List.range' (5 - 5 % 2) (5 % 2)).map fun i => ParTask.single i i).flatMap
        ParTask.invocations)
      = (List.range 5).map fun p => (p, p) :=
  parallel_foreach_i_batched_coverage 2 5 (by decide) (by decide)

/-- C5: the claim fails on the code.  For `t = 1`, `n = 1` we have
`part = 1 / 1 = 1 < 2`, yet `parallel_foreach_pair_i` submits one batch task
(covering `[0, 1)`) and no individual task: it does not follow the uniform
`part < 2` individual-submission policy of the other variants. -/
theorem parallel_foreach_pair_i_small_range_cex :
    (1 : Nat) / 1 < 2 ∧
    parallel_foreach_pair_i_tasks 1 1 = some [ParTask.batch 0 1 0] ∧
    parallel_foreach_pair_i_tasks 1 1 ≠ some [ParTask.single 0 0] := by decide

/-- C5 amended: `parallel_foreach_pair_i` has no `part < 2` special case: for
every pool of size `t >= 1` with `part = n / t < 2` it still submits `t` batch
tasks covering `[i*part, (i+1)*part)` plus the `n % t` remainder elements as
individual tasks; every element is nonetheless visited exactly once, paired
with its correct index. -/
theorem parallel_foreach_pair_i_always_batches (t n : Nat) (ht : 0 < t)
    (hp : n / t < 2) :
    parallel_foreach_pair_i_tasks t n =
      some ((List.range t).map
              (fun i => ParTask.batch (i * (n / t)) ((i + 1) * (n / t)) (i * (n / t)))
            ++ (List.range' (n - n % t) (n % t)).map fun i => ParTask.single i i) ∧
    (((List.range t).map
        (fun i => ParTask.batch (i * (n / t)) ((i + 1) * (n / t)) (i * (n / t)))
      ++ (List.range' (n - n % t) (n % t)).map fun i => ParTask.single i i).flatMap
        ParTask.invocations)
      = (List.range n).map fun p => (p, p) := by
  constructor
  · have h0 : ¬ t = 0 := by omega
    simp only [parallel_foreach_pair_i_tasks, h0, if_false]
  · exact sched_invocations t n

/-- C5 amended witness: instantiated at `t = 2`, `n = 3` (part = 1 < 2): two
batch tasks covering `[0, 1)` and `[1, 2)` plus one individual task for
position 2. -/
theorem parallel_foreach_pair_i_always_batches_witness :
    parallel_foreach_pair_i_tasks 2 3 =
      some ((List.range 2).map
              (fun i => ParTask.batch (i * (3 / 2)) ((i + 1) * (3 / 2)) (i * (3 / 2)))
            ++ (List.range' (3 - 3 % 2) (3 % 2)).map fun i => ParTask.single i i) ∧
    (((List.range 2).map
        (fun i => ParTask.batch (i * (3 / 2)) ((i + 1) * (3 / 2)) (i * (3 / 2)))
      ++ (List.range' (3 - 3 % 2) (3 % 2)).map fun i => ParTask.single i i).flatMap
        ParTask.invocations)
      = (List.range 3).map fun p => (p, p) :=
  parallel_foreach_pair_i_always_batches 2 3 (by decide) (by decide)

/-- C7: the claim fails on the code.  Neither `parallel_foreach_n` nor the
random-access `parallel_foreach` guards the computation `part = n / t` for a
zero-size pool: with `t = 0` and a non-empty range the division by zero is
reached (undefined behavior, modelled as `none`). -/
theorem parallel_foreach_div_by_zero_cex :
    parallel_foreach_n_indices 0 0 1 = none ∧
    parallel_foreach_positions 0 1 = none := by decide

/-- C7 amended: the batching computation `part = n / t` is NOT guarded for
`t == 0`: for a zero-size pool, both batched entry points reach the division
by zero (modelled as `none`) for every range, empty or not. -/
theorem parallel_foreach_zero_pool_unguarded (first last n : Nat) :
    parallel_foreach_n_indices 0 first last = none ∧
    parallel_foreach_positions 0 n = none := by
  simp [parallel_foreach_n_indices, parallel_foreach_positions]

example : parallel_foreach_n_indices 2 2 6 = some [0, 1, 2, 3] := by decide

example : parallel_foreach_n_indices 2 0 6 = some [0, 1, 2, 3, 4, 5] := by decide

example : parallel_foreach_pair_i_tasks 1 1 = some [ParTask.batch 0 1 0] := by decide

example : parallel_foreach_i_tasks 2 5 =
    some [ParTask.batch 0 2 0, ParTask.batch 2 4 2, ParTask.single 4 4] := by decide

example : (ParTask.batch 2 4 2).invocations = [(2, 2), (3, 3)] := by decide

/-! ## The thread pool (thread_pool.hpp)

Operational model of `default_thread_pool`.  Tasks are identified by the order
in which they were submitted (`nextId` counts submissions).  Every mutation of
the queue, the status vector and the stop flag in the source happens under the
single mutex `main_lock`; each such critical section is one atomic step of the
model.  Executing a task (`task()` at line 96) happens outside the lock and is
a separate step.  The position of each worker inside its loop (lines 71-98) is
tracked by a `WorkerPhase`. -/

/-- Status of a pool worker thread (`thread_status` in thread_pool.hpp). -/
inductive thread_status
  | WAITING
  | WORKING
deriving DecidableEq, Repr

/-- The control position of a worker inside the loop of thread_pool.hpp,
lines 71-98:

* `atLoop`: at the top of the loop body, before acquiring the lock (this is
  also the position right after `task()` returns, the status vector still
  reading whatever it read before);
* `idle`: inside the locked region having set its status to WAITING, blocked
  on the condition variable (or about to re-check its predicate);
* `executing id`: having popped task `id` and set its status to WORKING,
  running the task outside the lock;
* `exited`: returned from the loop (shutdown). -/
inductive WorkerPhase
  | atLoop
  | idle
  | executing (id : Nat)
  | exited
deriving DecidableEq, Repr

/-- The state of a `default_thread_pool` with `n` worker threads, together
with the bookkeeping needed to state the claims: `nextId` counts submissions
(task ids are assigned in submission order), `popped` records ids in dequeue
order, `completed` records ids in completion order, and `notified` counts the
`condition.notify_one()` calls made by `do_task`. -/
structure PoolState (n : Nat) where
  tasks : List Nat
  status : Fin n → thread_status
  phase : Fin n → WorkerPhase
  stop_flag : Bool
  nextId : Nat
  popped : List Nat
  completed : List Nat
  notified : Nat

/-- The pool right after the constructor (thread_pool.hpp, line 63): the queue
is empty, every worker status is initialized to WAITING
(`status(n, thread_status::WAITING)`), every worker thread is at the top of
its loop, and the stop flag is false. -/
def initState (n : Nat) : PoolState n where
  tasks := []
  status := fun _ => .WAITING
  phase := fun _ => .atLoop
  stop_flag := false
  nextId := 0
  popped := []
  completed := []
  notified := 0

/-- One atomic step of the pool.  Each constructor is one critical section
under `main_lock` of the source (or the lock-free execution of a task):

* `submit`: `do_task` (lines 153-172) with `stop_flag` false: appends one
  closure to the back of the queue and notifies one worker;
* `stop`: the destructor (line 112) sets `stop_flag` under the lock;
* `enter`: a worker at the top of its loop acquires the lock and sets its
  status to WAITING (line 78), then blocks on the condition variable;
* `pop`: a woken worker whose queue is non-empty pops the front task and sets
  its status to WORKING (lines 90-93), still under the same lock discipline;
* `finish`: a worker returns from `task()` (line 96), outside the lock — its
  status still reads WORKING until it re-enters the locked region;
* `exitw`: a woken worker observing `stop_flag && tasks.empty()` returns
  (lines 86-88). -/
inductive Step {n : Nat} : PoolState n → PoolState n → Prop
  | submit (s : PoolState n) (h : s.stop_flag = false) :
      Step s { s with tasks := s.tasks ++ [s.nextId], nextId := s.nextId + 1,
                      notified := s.notified + 1 }
  | stop (s : PoolState n) :
      Step s { s with stop_flag := true }
  | enter (s : PoolState n) (t : Fin n) (h : s.phase t = .atLoop) :
      Step s { s with status := Function.update s.status t .WAITING,
                      phase := Function.update s.phase t .idle }
  | pop (s : PoolState n) (t : Fin n) (id : Nat) (rest : List Nat)
      (hph : s.phase t = .idle) (hq : s.tasks = id :: rest) :
      Step s { s with tasks := rest,
                      status := Function.update s.status t .WORKING,
                      phase := Function.update s.phase t (.executing id),
                      popped := s.popped ++ [id] }
  | finish (s : PoolState n) (t : Fin n) (id : Nat)
      (hph : s.phase t = .executing id) :
      Step s { s with phase := Function.update s.phase t .atLoop,
                      completed := s.completed ++ [id] }
  | exitw (s : PoolState n) (t : Fin n) (hph : s.phase t = .idle)
      (hstop : s.stop_flag = true) (hq : s.tasks = []) :
      Step s { s with phase := Function.update s.phase t .exited }

/-- A pool state reachable from the freshly constructed pool. -/
def Reachable (n : Nat) (s : PoolState n) : Prop :=
  Relation.ReflTransGen Step (initState n) s

/-- The condition under which `wait()` returns (thread_pool.hpp, line 136),
checked under a single acquisition of `main_lock`: the task queue is empty and
no entry of the status vector is WORKING. -/
def waitReturns {n : Nat} (s : PoolState n) : Prop :=
  s.tasks = [] ∧ ∀ t : Fin n, s.status t ≠ .WORKING

instance {n : Nat} (s : PoolState n) : Decidable (waitReturns s) := by
  unfold waitReturns; infer_instance

/-- Model of `default_thread_pool::do_task` (thread_pool.hpp, lines 153-172).
Under `main_lock`: if `stop_flag` is set, the submission fails (throw in
normal builds, abort in no-exception builds) before any mutation, so the
queue is untouched and — the throw propagating out of `do_task` before
line 171 — no worker is notified; the `error` result of the model carries the
unchanged-caller-state semantics of the C++ exception.  Otherwise exactly one
zero-argument closure wrapping `fn(args...)` is appended to the back of the
queue and, after the lock is released, one worker is notified. -/
def do_task {n : Nat} (s : PoolState n) : Except String (PoolState n) :=
  if s.stop_flag then
    Except.error "cpp_utils: enqueue on stopped ThreadPool"
  else
    Except.ok { s with tasks := s.tasks ++ [s.nextId], nextId := s.nextId + 1,
                       notified := s.notified + 1 }

/-- The ids of the tasks popped but not yet finished by the single worker of a
1-worker pool. -/
def held1 (s : PoolState 1) : List Nat :=
  match s.phase 0 with
  | .executing id => [id]
  | _ => []

/-- The task held by a worker in the given phase, as a multiset (empty unless
the worker is executing a popped task). -/
def phaseHeld : WorkerPhase → Multiset Nat
  | .executing id => {id}
  | _ => 0

/-- The multiset of tasks held by the workers of a phase assignment. -/
def heldMf {n : Nat} (ph : Fin n → WorkerPhase) : Multiset Nat :=
  ∑ u : Fin n, phaseHeld (ph u)

/-- The multiset of task ids popped but not yet finished, across all workers. -/
def heldM {n : Nat} (s : PoolState n) : Multiset Nat :=
  heldMf s.phase

/-- Updating one worker's phase exchanges its held task for the new one in the
held multiset. -/
lemma heldMf_update {n : Nat} (ph : Fin n → WorkerPhase) (t : Fin n)
    (v : WorkerPhase) :
    heldMf (Function.update ph t v) + phaseHeld (ph t)
      = heldMf ph + phaseHeld v := by
  have hcomp : (fun u => phaseHeld (Function.update ph t v u))
      = Function.update (fun u => phaseHeld (ph u)) t (phaseHeld v) := by
    funext u
    by_cases hut : u = t
    · subst hut; simp
    · simp [Function.update_noteq hut]
  unfold heldMf
  rw [hcomp, Finset.sum_update_of_mem (Finset.mem_univ t),
    Finset.sum_eq_add_sum_diff_singleton (Finset.mem_univ t)
      fun u => phaseHeld (ph u)]
  ac_rfl

/-- The invariants of the pool, preserved by every step:

* `exec_working`: a worker executing a popped task has status WORKING;
* `idle_waiting`: a worker blocked inside the locked region has status
  WAITING;
* `working_phase`: a WORKING status means the worker is executing a popped
  task or is back at the top of its loop after finishing one;
* `fifo`: the popped ids followed by the queued ids are exactly the ids in
  submission order — tasks leave the queue front-first, in submission order;
* `exited_stop`: a worker can only have exited after the stop flag was set;
* `exited_empty`: once every worker of a non-empty pool has exited, the queue
  is empty;
* `comp`: completed ids plus held ids are, as a multiset, exactly the popped
  ids. -/
structure PoolInv {n : Nat} (s : PoolState n) : Prop where
  exec_working : ∀ (t : Fin n) (id : Nat),
    s.phase t = .executing id → s.status t = .WORKING
  idle_waiting : ∀ t : Fin n, s.phase t = .idle → s.status t = .WAITING
  working_phase : ∀ t : Fin n, s.status t = .WORKING →
    (∃ id, s.phase t = .executing id) ∨ s.phase t = .atLoop
  fifo : s.popped ++ s.tasks = List.range s.nextId
  exited_stop : ∀ t : Fin n, s.phase t = .exited → s.stop_flag = true
  exited_empty : 0 < n → (∀ t : Fin n, s.phase t = .exited) → s.tasks = []
  comp : (s.completed : Multiset Nat) + heldM s = (s.popped : Multiset Nat)

/-- The invariants hold in the freshly constructed pool. -/
lemma poolInv_init (n : Nat) : PoolInv (initState n) where
  exec_working := fun t id h => by simp [initState] at h
  idle_waiting := fun t _ => rfl
  working_phase := fun t h => by simp [initState] at h
  fifo := rfl
  exited_stop := fun t h => by simp [initState] at h
  exited_empty := fun _ _ => rfl
  comp := by simp [initState, heldM, heldMf, phaseHeld]

/-- The invariants are preserved by every step of the pool. -/
lemma poolInv_step {n : Nat} {s s₂ : PoolState n} (hs : Step s s₂)
    (ih : PoolInv s) : PoolInv s₂ := by
  cases hs with
  | submit h =>
    refine ⟨?_, ?_, ?_, ?_, ?_, ?_, ?_⟩ <;> dsimp only
    · exact ih.exec_working
    · exact ih.idle_waiting
    · exact ih.working_phase
    · rw [List.range_succ, ← List.append_assoc, ih.fifo]
    · exact ih.exited_stop
    · intro hn hall
      exact absurd (ih.exited_stop ⟨0, hn⟩ (hall ⟨0, hn⟩)) (by simp [h])
    · show (s.completed : Multiset Nat) + heldMf s.phase = _
      exact ih.comp
  | stop =>
    refine ⟨?_, ?_, ?_, ?_, ?_, ?_, ?_⟩ <;> dsimp only
    · exact ih.exec_working
    · exact ih.idle_waiting
    · exact ih.working_phase
    · exact ih.fifo
    · intro _ _; rfl
    · intro hn hall; exact ih.exited_empty hn hall
    · show (s.completed : Multiset Nat) + heldMf s.phase = _
      exact ih.comp
  | enter t h =>
    refine ⟨?_, ?_, ?_, ?_, ?_, ?_, ?_⟩ <;> dsimp only
    · intro u id hu
      by_cases hut : u = t
      · subst hut; rw [Function.update_same] at hu; exact absurd hu (by simp)
      · rw [Function.update_noteq hut] at hu
        rw [Function.update_noteq hut]
        exact ih.exec_working u id hu
    · intro u hu
      by_cases hut : u = t
      · subst hut; rw [Function.update_same]
      · rw [Function.update_noteq hut] at hu
        rw [Function.update_noteq hut]
        exact ih.idle_waiting u hu
    · intro u hu
      by_cases hut : u = t
      · subst hut; rw [Function.update_same] at hu; exact absurd hu (by simp)
      · rw [Function.update_noteq hut] at hu
        rw [Function.update_noteq hut]
        exact ih.working_phase u hu
    · exact ih.fifo
    · intro u hu
      by_cases hut : u = t
      · subst hut; rw [Function.update_same] at hu; exact absurd hu (by simp)
      · rw [Function.update_noteq hut] at hu
        exact ih.exited_stop u hu
    · intro hn hall
      have h2 := hall t
      rw [Function.update_same] at h2
      exact absurd h2 (by simp)
    · show (s.completed : Multiset Nat)
        + heldMf (Function.update s.phase t .idle) = _
      have hu := heldMf_update s.phase t .idle
      rw [h] at hu
      have hz : phaseHeld .atLoop = 0 := rfl
      have hz2 : phaseHeld .idle = 0 := rfl
      rw [hz, hz2, add_zero, add_zero] at hu
      rw [hu]
      exact ih.comp
  | pop t id rest hph hq =>
    refine ⟨?_, ?_, ?_, ?_, ?_, ?_, ?_⟩ <;> dsimp only
    · intro u id2 hu
      by_cases hut : u = t
      · subst hut; rw [Function.update_same]
      · rw [Function.update_noteq hut] at hu
        rw [Function.update_noteq hut]
        exact ih.exec_working u id2 hu
    · intro u hu
      by_cases hut : u = t
      · subst hut; rw [Function.update_same] at hu; exact absurd hu (by simp)
      · rw [Function.update_noteq hut] at hu
        rw [Function.update_noteq hut]
        exact ih.idle_waiting u hu
    · intro u hu
      by_cases hut : u = t
      · subst hut; rw [Function.update_same]; exact Or.inl ⟨id, rfl⟩
      · rw [Function.update_noteq hut] at hu
        rw [Function.update_noteq hut]
        exact ih.working_phase u hu
    · rw [List.append_assoc]
      have h2 : [id] ++ rest = s.tasks := by rw [hq]; rfl
      rw [h2, ih.fifo]
    · intro u hu
      by_cases hut : u = t
      · subst hut; rw [Function.update_same] at hu; exact absurd hu (by simp)
      · rw [Function.update_noteq hut] at hu
        exact ih.exited_stop u hu
    · intro hn hall
      have h2 := hall t
      rw [Function.update_same] at h2
      exact absurd h2 (by simp)
    · show (s.completed : Multiset Nat)
        + heldMf (Function.update s.phase t (.executing id))
        = ((s.popped ++ [id] : List Nat) : Multiset Nat)
      have hu := heldMf_update s.phase t (.executing id)
      rw [hph] at hu
      have hz : phaseHeld .idle = 0 := rfl
      have hx : phaseHeld (.executing id) = {id} := rfl
      rw [hz, hx, add_zero] at hu
      rw [hu, ← Multiset.coe_add, Multiset.coe_singleton, ← add_assoc]
      have hc : (s.completed : Multiset Nat) + heldMf s.phase
          = (s.popped : Multiset Nat) := ih.comp
      rw [hc]
  | finish t id hph =>
    refine ⟨?_, ?_, ?_, ?_, ?_, ?_, ?_⟩ <;> dsimp only
    · intro u id2 hu
      by_cases hut : u = t
      · subst hut; rw [Function.update_same] at hu; exact absurd hu (by simp)
      · rw [Function.update_noteq hut] at hu
        exact ih.exec_working u id2 hu
    · intro u hu
      by_cases hut : u = t
      · subst hut; rw [Function.update_same] at hu; exact absurd hu (by simp)
      · rw [Function.update_noteq hut] at hu
        exact ih.idle_waiting u hu
    · intro u hu
      by_cases hut : u = t
      · subst hut; rw [Function.update_same]; exact Or.inr rfl
      · rw [Function.update_noteq hut]
        exact ih.working_phase u hu
    · exact ih.fifo
    · intro u hu
      by_cases hut : u = t
      · subst hut; rw [Function.update_same] at hu; exact absurd hu (by simp)
      · rw [Function.update_noteq hut] at hu
        exact ih.exited_stop u hu
    · intro hn hall
      have h2 := hall t
      rw [Function.update_same] at h2
      exact absurd h2 (by simp)
    · show ((s.completed ++ [id] : List Nat) : Multiset Nat)
        + heldMf (Function.update s.phase t .atLoop) = _
      have hu := heldMf_update s.phase t .atLoop
      rw [hph] at hu
      have hz : phaseHeld .atLoop = 0 := rfl
      have hx : phaseHeld (.executing id) = {id} := rfl
      rw [hz, hx, add_zero] at hu
      have h3 : heldMf (Function.update s.phase t .atLoop) + {id} = heldM s := hu
      rw [← ih.comp, ← h3, ← Multiset.coe_add, Multiset.coe_singleton]
      ac_rfl
  | exitw t hph hstop hq =>
    refine ⟨?_, ?_, ?_, ?_, ?_, ?_, ?_⟩ <;> dsimp only
    · intro u id2 hu
      by_cases hut : u = t
      · subst hut; rw [Function.update_same] at hu; exact absurd hu (by simp)
      · rw [Function.update_noteq hut] at hu
        exact ih.exec_working u id2 hu
    · intro u hu
      by_cases hut : u = t
      · subst hut; rw [Function.update_same] at hu; exact absurd hu (by simp)
      · rw [Function.update_noteq hut] at hu
        exact ih.idle_waiting u hu
    · intro u hu
      by_cases hut : u = t
      · subst hut
        have h2 := ih.idle_waiting _ hph
        rw [h2] at hu
        exact absurd hu (by simp)
      · rw [Function.update_noteq hut]
        exact ih.working_phase u hu
    · exact ih.fifo
    · intro u _; exact hstop
    · intro _ _; exact hq
    · show (s.completed : Multiset Nat)
        + heldMf (Function.update s.phase t .exited) = _
      have hu := heldMf_update s.phase t .exited
      rw [hph] at hu
      have hz : phaseHeld .idle = 0 := rfl
      have hz2 : phaseHeld .exited = 0 := rfl
      rw [hz, hz2, add_zero, add_zero] at hu
      rw [hu]
      exact ih.comp

/-- The invariants hold in every reachable pool state. -/
lemma reachable_inv {n : Nat} {s : PoolState n} (h : Reachable n s) : PoolInv s := by
  induction h with
  | refl => exact poolInv_init n
  | tail _ hstep ih => exact poolInv_step hstep ih

/-- For a 1-worker pool the completion order is exact: the completed ids
followed by the held id (if any) are the popped ids, as lists. -/
lemma inv1 {s : PoolState 1} (h : Reachable 1 s) :
    s.completed ++ held1 s = s.popped := by
  induction h with
  | refl => rfl
  | tail hsteps hstep ih =>
    cases hstep with
    | submit h2 => exact ih
    | stop => exact ih
    | enter t h2 =>
      have ht : t = 0 := Subsingleton.elim t 0
      subst ht
      simp only [held1, h2, List.append_nil] at ih
      simp only [held1, Function.update_same, List.append_nil]
      exact ih
    | pop t id rest hph hq =>
      have ht : t = 0 := Subsingleton.elim t 0
      subst ht
      simp only [held1, hph, List.append_nil] at ih
      simp only [held1, Function.update_same]
      rw [ih]
    | finish t id hph =>
      have ht : t = 0 := Subsingleton.elim t 0
      subst ht
      simp only [held1, hph] at ih
      simp only [held1, Function.update_same, List.append_nil]
      exact ih
    | exitw t hph hstop hq =>
      have ht : t = 0 := Subsingleton.elim t 0
      subst ht
      simp only [held1, hph, List.append_nil] at ih
      simp only [held1, Function.update_same, List.append_nil]
      exact ih

/-! ### A concrete history of a 1-worker pool

One task is submitted, the destructor sets the stop flag while the task is
still queued (and unpopped), the worker then pops and executes it, loops,
observes the stop flag with an empty queue, and exits. -/

/-- The freshly constructed 1-worker pool. -/
def ts0 : PoolState 1 := initState 1

/-- After `do_task`: task 0 is queued. -/
def ts1 : PoolState 1 :=
  { ts0 with tasks := ts0.tasks ++ [ts0.nextId], nextId := ts0.nextId + 1,
             notified := ts0.notified + 1 }

/-- Destruction begins: the stop flag is set while task 0 is still queued. -/
def ts2 : PoolState 1 := { ts1 with stop_flag := true }

/-- The worker enters the locked region and sets its status to WAITING. -/
def ts3 : PoolState 1 :=
  { ts2 with status := Function.update ts2.status 0 .WAITING,
             phase := Function.update ts2.phase 0 .idle }

/-- The worker pops task 0 (the queue is non-empty, so it does not exit even
though the stop flag is set) and marks itself WORKING. -/
def ts4 : PoolState 1 :=
  { ts3 with tasks := [],
             status := Function.update ts3.status 0 .WORKING,
             phase := Function.update ts3.phase 0 (.executing 0),
             popped := ts3.popped ++ [0] }

/-- The worker returns from executing task 0; its status still reads
WORKING. -/
def ts5 : PoolState 1 :=
  { ts4 with phase := Function.update ts4.phase 0 .atLoop,
             completed := ts4.completed ++ [0] }

/-- The worker re-enters the locked region and sets its status to WAITING. -/
def ts6 : PoolState 1 :=
  { ts5 with status := Function.update ts5.status 0 .WAITING,
             phase := Function.update ts5.phase 0 .idle }

/-- The worker observes the stop flag with an empty queue and exits. -/
def ts7 : PoolState 1 := { ts6 with phase := Function.update ts6.phase 0 .exited }

lemma step01 : Step ts0 ts1 := Step.submit ts0 rfl

lemma step12 : Step ts1 ts2 := Step.stop ts1

lemma step23 : Step ts2 ts3 := Step.enter ts2 0 rfl

lemma step34 : Step ts3 ts4 := Step.pop ts3 0 0 [] rfl rfl

lemma step45 : Step ts4 ts5 := Step.finish ts4 0 0 rfl

lemma step56 : Step ts5 ts6 := Step.enter ts5 0 rfl

lemma step67 : Step ts6 ts7 := Step.exitw ts6 0 rfl rfl rfl

lemma reach_ts1 : Reachable 1 ts1 := Relation.ReflTransGen.single step01

lemma reach_ts2 : Reachable 1 ts2 := reach_ts1.tail step12

lemma reach_ts3 : Reachable 1 ts3 := reach_ts2.tail step23

lemma reach_ts4 : Reachable 1 ts4 := reach_ts3.tail step34

lemma reach_ts5 : Reachable 1 ts5 := reach_ts4.tail step45

lemma reach_ts6 : Reachable 1 ts6 := reach_ts5.tail step56

lemma reach_ts7 : Reachable 1 ts7 := reach_ts6.tail step67

/-! ### The claims about the pool -/

/-- C1: `wait()` returns only when, under a single acquisition of the main
lock, the task queue is empty and no worker status is WORKING (this is
`waitReturns`, the literal return condition of thread_pool.hpp line 136); in
any reachable state satisfying it, no worker holds a popped task it has not
finished executing. -/
theorem wait_returns_only_when_drained {n : Nat} (s : PoolState n)
    (h : Reachable n s) (hw : waitReturns s) :
    ∀ (t : Fin n) (id : Nat), s.phase t ≠ .executing id := by
  intro t id hid
  exact hw.2 t ((reachable_inv h).exec_working t id hid)

/-- C1 witness: in the final state of the concrete history (task executed,
worker exited) the drain condition holds and indeed no task is being
executed. -/
theorem wait_returns_only_when_drained_witness :
    ts7.phase 0 ≠ WorkerPhase.executing 0 :=
  wait_returns_only_when_drained ts7 reach_ts7 ⟨rfl, by decide⟩ 0 0

/-- C2: the claim fails on the code.  In the concrete 1-worker history, task 0
is still queued (and not yet popped) in state `ts1` when destruction begins
(the `stop` step to `ts2`), yet it is later executed: `ts5.completed = [0]`.
The worker loop exits only when `stop_flag && tasks.empty()`, so a worker
drains the queue rather than dropping it. -/
theorem queued_task_executed_after_stop_cex :
    ¬ (∀ (s₁ s₂ s₃ : PoolState 1), Reachable 1 s₁ → Step s₁ s₂ →
        s₂.stop_flag = true → Relation.ReflTransGen Step s₂ s₃ →
        ∀ id ∈ s₁.tasks, id ∉ s₃.completed) := by
  intro hclaim
  have h25 : Relation.ReflTransGen Step ts2 ts5 :=
    Relation.ReflTransGen.head step23
      (Relation.ReflTransGen.head step34 (Relation.ReflTransGen.single step45))
  exact hclaim ts1 ts2 ts5 reach_ts1 step12 rfl h25 0 (by decide) (by decide)

/-- C2 amended: tasks still queued when destruction begins are executed, not
dropped: a worker's loop exits only once the stop flag is set AND the queue is
empty, so the workers drain the queue; for a pool with at least one worker,
once every worker has exited, the multiset of completed tasks is exactly the
multiset of all submitted tasks. -/
theorem shutdown_drains_queue {n : Nat} (hn : 0 < n) (s : PoolState n)
    (h : Reachable n s) (hx : ∀ t : Fin n, s.phase t = .exited) :
    s.completed.Perm (List.range s.nextId) := by
  have inv := reachable_inv h
  have htasks : s.tasks = [] := inv.exited_empty hn hx
  have hpop : s.popped = List.range s.nextId := by
    have hf := inv.fifo
    rw [htasks, List.append_nil] at hf
    exact hf
  have hheld : heldM s = 0 := by
    unfold heldM heldMf
    apply Finset.sum_eq_zero
    intro t _
    rw [hx t]
    rfl
  have hc := inv.comp
  rw [hheld, add_zero, hpop] at hc
  exact Multiset.coe_eq_coe.mp hc

/-- C2 amended witness: in the final state of the concrete history the worker
has exited and the one submitted task has been completed. -/
theorem shutdown_drains_queue_witness :
    ts7.completed.Perm (List.range ts7.nextId) :=
  shutdown_drains_queue (by decide) ts7 reach_ts7 (by decide)

/-- C6: `do_task` fails with the "enqueue on stopped pool" error if and only
if the stop flag is set at submission time (checked under the main lock; on
the error path the throw precedes any mutation and skips the notification, so
the model returns no successor state — the caller's state is unchanged);
otherwise exactly one closure is appended to the back of the queue, one
worker is notified, and nothing else changes. -/
theorem do_task_spec {n : Nat} (s : PoolState n) :
    ((∃ e, do_task s = Except.error e) ↔ s.stop_flag = true) ∧
    (∀ s₂, do_task s = Except.ok s₂ →
      s₂.tasks = s.tasks ++ [s.nextId] ∧ s₂.notified = s.notified + 1 ∧
      s₂.status = s.status ∧ s₂.phase = s.phase ∧ s₂.popped = s.popped ∧
      s₂.completed = s.completed ∧ s₂.stop_flag = s.stop_flag ∧
      s₂.nextId = s.nextId + 1) := by
  cases hsf : s.stop_flag with
  | false =>
    constructor
    · constructor
      · rintro ⟨e, he⟩
        simp [do_task, hsf] at he
      · intro h2
        exact absurd h2 (by simp)
    · intro s₂ hok
      simp only [do_task, hsf] at hok
      simp only [Bool.false_eq_true, if_false, Except.ok.injEq] at hok
      subst hok
      exact ⟨rfl, rfl, rfl, rfl, rfl, rfl, rfl, rfl⟩
  | true =>
    constructor
    · exact ⟨fun _ => rfl,
        fun _ => ⟨"cpp_utils: enqueue on stopped ThreadPool",
          by simp [do_task, hsf]⟩⟩
    · intro s₂ hok
      simp [do_task, hsf] at hok

/-- The state produced by a successful `do_task` on the fresh 1-worker pool. -/
def doTaskOk1 : PoolState 1 :=
  { initState 1 with
    tasks := (initState 1).tasks ++ [(initState 1).nextId],
    nextId := (initState 1).nextId + 1,
    notified := (initState 1).notified + 1 }

/-- C6 witness: on the stopped pool `ts2` submission errors; on the fresh pool
it appends exactly the new task id. -/
theorem do_task_spec_witness :
    (∃ e, do_task ts2 = Except.error e) ∧
    doTaskOk1.tasks = (initState 1).tasks ++ [(initState 1).nextId] :=
  ⟨(do_task_spec ts2).1.mpr rfl,
   ((do_task_spec (initState 1)).2 doTaskOk1 rfl).1⟩

/-- C8: tasks are removed from the queue in exactly submission order — in
every reachable state of any pool the popped ids followed by the queued ids
are precisely the ids in submission order — and for a pool with exactly one
worker the completed ids are an initial segment of the submission order, i.e.
tasks complete in exact enqueue order. -/
theorem fifo_and_single_worker_order :
    (∀ (n : Nat) (s : PoolState n), Reachable n s →
      s.popped ++ s.tasks = List.range s.nextId) ∧
    (∀ s : PoolState 1, Reachable 1 s →
      s.completed = List.range s.completed.length) := by
  constructor
  · intro n s h
    exact (reachable_inv h).fifo
  · intro s h
    have h1 : s.completed ++ (held1 s ++ s.tasks) = List.range s.nextId := by
      rw [← List.append_assoc, inv1 h, (reachable_inv h).fifo]
    have hlen : s.completed.length ≤ s.nextId := by
      have h3 := congrArg List.length h1
      rw [List.length_append, List.length_range] at h3
      omega
    calc s.completed
        = List.take s.completed.length (List.range s.nextId) := by
          rw [← h1, List.take_left]
      _ = List.range (min s.completed.length s.nextId) :=
          List.take_range _ _
      _ = List.range s.completed.length := by rw [min_eq_left hlen]

/-- C8 witness: in the state right after the single worker finished task 0,
dequeue order matches submission order and the completed list is an initial
segment of it. -/
theorem fifo_and_single_worker_order_witness :
    ts5.popped ++ ts5.tasks = List.range ts5.nextId ∧
    ts5.completed = List.range ts5.completed.length :=
  ⟨fifo_and_single_worker_order.1 1 ts5 reach_ts5,
   fifo_and_single_worker_order.2 ts5 reach_ts5⟩

/-- C9: the claim fails on the code.  In the reachable state `ts5` the worker
has returned from executing task 0 but has not yet re-acquired the lock at the
top of its loop, so its status still reads WORKING while it holds no task: the
"only if" direction of the claimed equivalence is false. -/
theorem working_iff_holds_task_cex :
    ¬ (∀ (s : PoolState 1), Reachable 1 s → ∀ t : Fin 1,
        (s.status t = .WORKING ↔ ∃ id, s.phase t = .executing id)) := by
  intro hclaim
  have h := (hclaim ts5 reach_ts5 0).mp rfl
  rcases h with ⟨id, hid⟩
  have h2 : WorkerPhase.atLoop = WorkerPhase.executing id := hid
  simp at h2

/-- C9 amended: a worker executing a popped, unfinished task always has status
WORKING; conversely a WORKING status means the worker either is executing a
popped task or has just finished one and not yet reset its status at the top
of the loop (the reset happens only under the next lock acquisition,
thread_pool.hpp line 78). -/
theorem working_status_characterization {n : Nat} (s : PoolState n)
    (h : Reachable n s) (t : Fin n) :
    ((∃ id, s.phase t = .executing id) → s.status t = .WORKING) ∧
    (s.status t = .WORKING →
      (∃ id, s.phase t = .executing id) ∨ s.phase t = .atLoop) := by
  have inv := reachable_inv h
  constructor
  · rintro ⟨id, hid⟩
    exact inv.exec_working t id hid
  · exact inv.working_phase t

/-- C9 amended witness: while the worker is executing task 0 its status is
WORKING. -/
theorem working_status_characterization_witness :
    ts4.status 0 = thread_status.WORKING :=
  (working_status_characterization ts4 reach_ts4 0).1 ⟨0, rfl⟩

/-- C10: for every pool size `n` (including 0), in the state left by the
constructor — empty queue, every status initialized to WAITING — the drain
condition of `wait()` already holds, so the first locked check of `wait()`
succeeds and the call returns immediately. -/
theorem wait_returns_immediately_after_construction (n : Nat) :
    waitReturns (initState n) :=
  ⟨rfl, fun t h2 => by simp [initState] at h2⟩


end cpp
